import Mathlib

/-!
Verification of the BITS packet decoder and evaluator
(repository file src/day16/src/main.rs).

The Rust program converts a hexadecimal string to a binary-digit string
(`Packet::hex_to_bin`), recursively parses it into a tree of packets
(`Packet::parse`), and evaluates the tree to a single u64
(`Packet::evaluate`).  This file embeds those functions shallowly:

* bit strings become `List Bool` (the Rust code works on `char` streams of
  the characters 0 and 1 produced by `hex_to_bin`; a faithful bit is a Bool);
* `u64` values become `Nat` with explicit reduction modulo `2 ^ 64`
  where the Rust arithmetic wraps, and explicit range checks where
  `u64::from_str_radix` would reject an overflowing literal;
* every `unwrap`/`panic!`/failed `assert_eq!` becomes `none` of an
  `Option` result;
* the recursive-descent parser, whose inner literal loop does not
  terminate on some truncated inputs, is embedded with an explicit fuel
  parameter; fuel exhaustion also yields `none`.
-/

/-- Modulus of Rust's u64 arithmetic. -/
def U64 : Nat := 2 ^ 64

/-- Value of a most-significant-bit-first binary digit list, as computed by
`from_str_radix(buf, 2)` on a string of 0/1 characters. -/
def binToNat (l : List Bool) : Nat :=
  l.foldl (fun a b => 2 * a + (if b then 1 else 0)) 0

/-- The `OperationType` enum of the source. -/
inductive OperationType where
  | Sum
  | Product
  | Min
  | Max
  | Greater
  | Less
  | Equal
deriving DecidableEq

/-- The `Packet` struct together with its `PacketType` payload: the source
keeps a struct `{ _version, type_id : PacketType }` with
`PacketType.Literal (u64)` and `PacketType.Operation (OperationType, Vec<Packet>)`;
flattening the struct-plus-enum pair into one inductive is an isomorphic
representation. -/
inductive Packet where
  | literal (version : Nat) (value : Nat)
  | operation (version : Nat) (op : OperationType) (subs : List Packet)

/-- The operator-kind table at the bottom of `Packet::parse`
(match on `op_type`: 0..=3, 5..=7 map to kinds, anything else panics). -/
def opOfCode (c : Nat) : Option OperationType :=
  if c = 0 then some OperationType.Sum
  else if c = 1 then some OperationType.Product
  else if c = 2 then some OperationType.Min
  else if c = 3 then some OperationType.Max
  else if c = 5 then some OperationType.Greater
  else if c = 6 then some OperationType.Less
  else if c = 7 then some OperationType.Equal
  else none

/-- One fuel level of the recursive parser: the four recursive entry points
of the source (`Packet::parse` itself, its literal-group loop, its mode-0
while loop and its mode-1 counted loop), with each recursive call made
through the previous fuel level. -/
structure Parsers where
  pkt : List Bool → Option (Packet × Nat × List Bool)
  lit : List Bool → Option (List Bool × Nat × List Bool)
  lenLoop : List Bool → Nat → Nat → List Packet → Option (List Packet × Nat × List Bool)
  cntLoop : List Bool → Nat → Option (List Packet × Nat × List Bool)

/-- Literal-group loop of `Packet::parse` (the `loop` in the
`Packet::LTRL_TYPEID` arm).  Each pass reads 1 flag bit (`pkt_len += 1`),
then 4 payload bits appended to `lit_buf` (`pkt_len += 4`), and stops after
a pass whose flag buffer equals the one-character string 0; a flag buffer
that is empty (exhausted input) or the character 1 keeps looping. -/
def litStep (lit : List Bool → Option (List Bool × Nat × List Bool))
    (bits : List Bool) : Option (List Bool × Nat × List Bool) :=
  let flag := bits.take 1
  let bits1 := bits.drop 1
  let grp := bits1.take 4
  let bits2 := bits1.drop 4
  if flag = [false] then
    some (grp, 5, bits2)
  else
    match lit bits2 with
    | none => none
    | some (buf, n, rest) => some (grp ++ buf, 5 + n, rest)

/-- Mode-0 loop of `Packet::parse`:
`while parsed_len < subs_len { let (sub, sub_len) = Packet::parse(bits); ... }`,
accumulating the parsed sub-packets and the sum of consumed lengths. -/
def lenLoopStep (pkt : List Bool → Option (Packet × Nat × List Bool))
    (lenLoop : List Bool → Nat → Nat → List Packet → Option (List Packet × Nat × List Bool))
    (bits : List Bool) (target parsed : Nat) (acc : List Packet) :
    Option (List Packet × Nat × List Bool) :=
  if parsed < target then
    match pkt bits with
    | none => none
    | some (p, l, bits1) => lenLoop bits1 target (parsed + l) (acc ++ [p])
  else
    some (acc, parsed, bits)

/-- Mode-1 loop of `Packet::parse`:
`(0..len).for_each(|_| { let (sub, sub_len) = Packet::parse(bits); ... })`,
collecting `len` sub-packets and the sum of their consumed lengths. -/
def cntLoopStep (pkt : List Bool → Option (Packet × Nat × List Bool))
    (cntLoop : List Bool → Nat → Option (List Packet × Nat × List Bool))
    (bits : List Bool) (k : Nat) : Option (List Packet × Nat × List Bool) :=
  match k with
  | 0 => some ([], 0, bits)
  | Nat.succ k1 =>
    match pkt bits with
    | none => none
    | some (p, l, bits1) =>
      match cntLoop bits1 k1 with
      | none => none
      | some (subs, s, rest) => some (p :: subs, l + s, rest)

/-- Body of `Packet::parse`.  The source reads with
`bits.by_ref().take(n).for_each(..)`, which yields at most `n` characters
and advances the iterator by the number actually yielded: this is
`List.take` and `List.drop`.  `u8::from_str_radix`/`usize::from_str_radix`
on the resulting buffer panic exactly when the buffer is empty (the 3-, 15-
and 11-bit reads can never overflow their integer types), and
`u64::from_str_radix` on the literal buffer additionally panics when the
value does not fit in a u64.  The match on the one-character mode buffer
sends the character 0 to the length-framed branch, the character 1 to the
count-framed branch, and an empty buffer to `panic!`.  The
`assert_eq!(subs_len, parsed_len)` after the mode-0 loop becomes the final
equality test of that branch. -/
def pktStep (lit : List Bool → Option (List Bool × Nat × List Bool))
    (lenLoop : List Bool → Nat → Nat → List Packet → Option (List Packet × Nat × List Bool))
    (cntLoop : List Bool → Nat → Option (List Packet × Nat × List Bool))
    (bits : List Bool) : Option (Packet × Nat × List Bool) :=
  let vbuf := bits.take 3
  let bits1 := bits.drop 3
  if vbuf.isEmpty then none else
  let version := binToNat vbuf
  let tbuf := bits1.take 3
  let bits2 := bits1.drop 3
  if tbuf.isEmpty then none else
  let typeId := binToNat tbuf
  if typeId = 4 then
    match lit bits2 with
    | none => none
    | some (litBuf, litLen, bits3) =>
      if litBuf.isEmpty then none
      else if binToNat litBuf < U64 then
        some (Packet.literal version (binToNat litBuf), 6 + litLen, bits3)
      else none
  else
    let mbuf := bits2.take 1
    let bits3 := bits2.drop 1
    if mbuf = [false] then
      let lbuf := bits3.take 15
      let bits4 := bits3.drop 15
      if lbuf.isEmpty then none else
      match lenLoop bits4 (binToNat lbuf) 0 [] with
      | none => none
      | some (subs, parsedLen, bits5) =>
        if binToNat lbuf = parsedLen then
          match opOfCode typeId with
          | none => none
          | some op =>
            some (Packet.operation version op subs, 6 + 1 + 15 + parsedLen, bits5)
        else none
    else if mbuf = [true] then
      let cbuf := bits3.take 11
      let bits4 := bits3.drop 11
      if cbuf.isEmpty then none else
      match cntLoop bits4 (binToNat cbuf) with
      | none => none
      | some (subs, subsLen, bits5) =>
        match opOfCode typeId with
        | none => none
        | some op =>
          some (Packet.operation version op subs, 6 + 1 + 11 + subsLen, bits5)
    else none

/-- Fuel-indexed tower of parsers; level `f + 1` makes every recursive call
of the source through level `f`. -/
def parsersF : Nat → Parsers
  | 0 => ⟨fun _ => none, fun _ => none, fun _ _ _ _ => none, fun _ _ => none⟩
  | Nat.succ f =>
    let P := parsersF f
    ⟨pktStep P.lit P.lenLoop P.cntLoop,
     litStep P.lit,
     lenLoopStep P.pkt P.lenLoop,
     cntLoopStep P.pkt P.cntLoop⟩

/-- The embedding of `Packet::parse` at a given fuel. -/
def parse (f : Nat) (bits : List Bool) : Option (Packet × Nat × List Bool) :=
  (parsersF f).pkt bits

/-- The embedding of the literal-group loop at a given fuel. -/
def parseLit (f : Nat) (bits : List Bool) : Option (List Bool × Nat × List Bool) :=
  (parsersF f).lit bits

/-- The embedding of the mode-0 while loop at a given fuel. -/
def parseSubsLen (f : Nat) (bits : List Bool) (target parsed : Nat) (acc : List Packet) :
    Option (List Packet × Nat × List Bool) :=
  (parsersF f).lenLoop bits target parsed acc

/-- The embedding of the mode-1 counted loop at a given fuel. -/
def parseSubsCnt (f : Nat) (bits : List Bool) (k : Nat) :
    Option (List Packet × Nat × List Bool) :=
  (parsersF f).cntLoop bits k

/-- Model of Rust's `char::to_digit(16)`: ASCII decimal digits, lower-case
and upper-case hexadecimal letters; anything else is `None`. -/
def toDigitHex (c : Char) : Option Nat :=
  let n := c.toNat
  if 48 ≤ n ∧ n ≤ 57 then some (n - 48)
  else if 97 ≤ n ∧ n ≤ 102 then some (n - 87)
  else if 65 ≤ n ∧ n ≤ 70 then some (n - 55)
  else none

/-- Model of `format!` with the 04b specifier applied to a hex-digit value:
the four bits of `d`, most significant first. -/
def natToBits4 (d : Nat) : List Bool :=
  [decide (d / 8 % 2 = 1), decide (d / 4 % 2 = 1),
   decide (d / 2 % 2 = 1), decide (d % 2 = 1)]

/-- The embedding of `Packet::hex_to_bin`: per character, `to_digit(HEX)`
is unwrapped (a non-hex character panics, hence `none`) and the 4-bit
binary rendering is appended. -/
def hex_to_bin : List Char → Option (List Bool)
  | [] => some []
  | c :: cs =>
    match toDigitHex c with
    | none => none
    | some d =>
      match hex_to_bin cs with
      | none => none
      | some bs => some (natToBits4 d ++ bs)

/-- The pipeline of `main`: hex to binary, then one root `Packet::parse`
call, keeping the packet and discarding the consumed count and the
trailing bits. -/
def decode (f : Nat) (hex : List Char) : Option Packet :=
  match hex_to_bin hex with
  | none => none
  | some bits =>
    match parse f bits with
    | none => none
    | some (p, _, _) => some p

mutual

/-- The embedding of `Packet::evaluate`.  `unwrap` of a missing
comparison operand and `min_by_key`/`max_by_key` returning `None` on an
empty child list become `none`; the u64 additions and multiplications of
the `fold`s wrap modulo `2 ^ 64`. -/
def evaluate : Packet → Option Nat
  | Packet.literal _ v => some v
  | Packet.operation _ op subs =>
    match op with
    | OperationType.Sum =>
      (evalList subs).map (fun vs => vs.foldl (fun a v => (a + v) % U64) 0)
    | OperationType.Product =>
      (evalList subs).map (fun vs => vs.foldl (fun a v => (a * v) % U64) 1)
    | OperationType.Min => (evalList subs).bind (fun vs => vs.min?)
    | OperationType.Max => (evalList subs).bind (fun vs => vs.max?)
    | OperationType.Greater =>
      match subs with
      | p1 :: p2 :: _ =>
        match evaluate p1, evaluate p2 with
        | some v1, some v2 => some (if v1 > v2 then 1 else 0)
        | _, _ => none
      | _ => none
    | OperationType.Less =>
      match subs with
      | p1 :: p2 :: _ =>
        match evaluate p1, evaluate p2 with
        | some v1, some v2 => some (if v1 < v2 then 1 else 0)
        | _, _ => none
      | _ => none
    | OperationType.Equal =>
      match subs with
      | p1 :: p2 :: _ =>
        match evaluate p1, evaluate p2 with
        | some v1, some v2 => some (if v1 = v2 then 1 else 0)
        | _, _ => none
      | _ => none

/-- Left-to-right evaluation of a child list; the first panicking child
aborts, exactly as a panic in the middle of the Rust folds does. -/
def evalList : List Packet → Option (List Nat)
  | [] => some []
  | p :: ps =>
    match evaluate p with
    | none => none
    | some v =>
      match evalList ps with
      | none => none
      | some vs => some (v :: vs)

end

/-- Selector for the three comparison kinds (the `comp @ (..)` pattern of
the source match). -/
def isCompOp : OperationType → Bool
  | OperationType.Greater => true
  | OperationType.Less => true
  | OperationType.Equal => true
  | _ => false

mutual

/-- Structural invariants of section 3 of the specification: a literal
value is a u64; a comparison operator has exactly 2 children; the other
operators have 1 or more children. -/
def InvB : Packet → Bool
  | Packet.literal _ v => decide (v < U64)
  | Packet.operation _ op subs =>
    (if isCompOp op then subs.length == 2 else !subs.isEmpty) && InvListB subs

/-- The invariants, child by child. -/
def InvListB : List Packet → Bool
  | [] => true
  | p :: ps => InvB p && InvListB ps

end

mutual

/-- Weaker shape conditions under which the evaluator cannot panic:
comparisons have at least 2 children, Min and Max at least 1; Sum and
Product are unconstrained. -/
def WeakInvB : Packet → Bool
  | Packet.literal _ v => decide (v < U64)
  | Packet.operation _ op subs =>
    (match op with
     | OperationType.Greater => decide (2 ≤ subs.length)
     | OperationType.Less => decide (2 ≤ subs.length)
     | OperationType.Equal => decide (2 ≤ subs.length)
     | OperationType.Min => !subs.isEmpty
     | OperationType.Max => !subs.isEmpty
     | _ => true) && WeakInvListB subs

/-- The weak conditions, child by child. -/
def WeakInvListB : List Packet → Bool
  | [] => true
  | p :: ps => WeakInvB p && WeakInvListB ps

end

/-- Minimum of a nonempty list of naturals (0 as junk value on []). -/
def listMin : List Nat → Nat
  | [] => 0
  | v :: vs => vs.foldl Nat.min v

/-- Maximum of a nonempty list of naturals (0 as junk value on []). -/
def listMax : List Nat → Nat
  | [] => 0
  | v :: vs => vs.foldl Nat.max v

mutual

/-- Modelled from the specification's description of `evaluate` (claim C1
wording): stored value for a literal; left-to-right folds of wrapping
addition (seed 0) and multiplication (seed 1); minimum resp. maximum of
the children's values; 1/0 according to the comparison of the first
child's value with the second child's value. -/
def specEval : Packet → Nat
  | Packet.literal _ v => v
  | Packet.operation _ op subs =>
    match op with
    | OperationType.Sum => (specEvalList subs).foldl (fun a v => (a + v) % U64) 0
    | OperationType.Product => (specEvalList subs).foldl (fun a v => (a * v) % U64) 1
    | OperationType.Min => listMin (specEvalList subs)
    | OperationType.Max => listMax (specEvalList subs)
    | OperationType.Greater =>
      if (specEvalList subs).getD 0 0 > (specEvalList subs).getD 1 0 then 1 else 0
    | OperationType.Less =>
      if (specEvalList subs).getD 0 0 < (specEvalList subs).getD 1 0 then 1 else 0
    | OperationType.Equal =>
      if (specEvalList subs).getD 0 0 = (specEvalList subs).getD 1 0 then 1 else 0

/-- The specified values of a list of children, in order. -/
def specEvalList : List Packet → List Nat
  | [] => []
  | p :: ps => specEval p :: specEvalList ps

end

/-- Bit encoding of a literal payload from its 4-bit groups: every group
but the last is preceded by a 1 continuation flag, the last by a 0 flag
(claim C2 wording). -/
def encodeGroups : List (List Bool) → List Bool
  | [] => []
  | [g] => false :: g
  | g :: gs => true :: (g ++ encodeGroups gs)

/-- Regrouping of a bit list into consecutive 4-bit groups (claim C8
wording). -/
def chunks4 : List Bool → List (List Bool)
  | [] => []
  | b :: l => (b :: l.take 3) :: chunks4 (l.drop 3)
termination_by l => l.length
decreasing_by
  simp only [List.length_cons, List.length_drop]
  omega

/-- Chained sequential parses: `ParseSeq bits pairs rest` holds when the
packets and consumed counts in `pairs` are produced by successive
`Packet::parse` calls starting at `bits` and ending at `rest`. -/
inductive ParseSeq : List Bool → List (Packet × Nat) → List Bool → Prop where
  | nil (bits : List Bool) : ParseSeq bits [] bits
  | cons {f : Nat} {bits bits1 rest : List Bool} {p : Packet} {n : Nat}
      {ps : List (Packet × Nat)} :
      parse f bits = some (p, n, bits1) → ParseSeq bits1 ps rest →
      ParseSeq bits ((p, n) :: ps) rest

theorem parse_succ (f : Nat) (bits : List Bool) :
    parse (f + 1) bits =
      pktStep (parseLit f) (parseSubsLen f) (parseSubsCnt f) bits := rfl

theorem parseLit_succ (f : Nat) (bits : List Bool) :
    parseLit (f + 1) bits = litStep (parseLit f) bits := rfl

theorem parseSubsLen_succ (f : Nat) (bits : List Bool) (target parsed : Nat)
    (acc : List Packet) :
    parseSubsLen (f + 1) bits target parsed acc =
      lenLoopStep (parse f) (parseSubsLen f) bits target parsed acc := rfl

theorem parseSubsCnt_succ (f : Nat) (bits : List Bool) (k : Nat) :
    parseSubsCnt (f + 1) bits k = cntLoopStep (parse f) (parseSubsCnt f) bits k := rfl

theorem binToNat_foldl_lt (l : List Bool) :
    ∀ a : Nat, l.foldl (fun a b => 2 * a + (if b then 1 else 0)) a < (a + 1) * 2 ^ l.length := by
  induction l with
  | nil => intro a; simp
  | cons b l ih =>
    intro a
    have h := ih (2 * a + (if b then 1 else 0))
    calc (b :: l).foldl (fun a b => 2 * a + (if b then 1 else 0)) a
        = l.foldl (fun a b => 2 * a + (if b then 1 else 0)) (2 * a + (if b then 1 else 0)) := by
          simp [List.foldl]
      _ < (2 * a + (if b then 1 else 0) + 1) * 2 ^ l.length := h
      _ ≤ (a + 1) * 2 ^ (b :: l).length := by
          have hb : (if b then 1 else 0) ≤ 1 := by cases b <;> simp
          simp only [List.length_cons, pow_succ]
          nlinarith [Nat.pos_pow_of_pos l.length (by omega : 0 < 2)]

theorem binToNat_lt (l : List Bool) : binToNat l < 2 ^ l.length := by
  have h := binToNat_foldl_lt l 0
  simpa [binToNat] using h

theorem isEmpty_false_of_length {l : List Bool} {n : Nat} (h : l.length = n) (hn : 0 < n) :
    l.isEmpty = false := by
  cases l with
  | nil => exfalso; simp at h; omega
  | cons a l => simp

theorem parseLit_encode (gs : List (List Bool)) :
    ∀ (f : Nat) (rest : List Bool), gs ≠ [] → (∀ g ∈ gs, g.length = 4) → gs.length ≤ f →
      parseLit f (encodeGroups gs ++ rest) = some (gs.flatten, 5 * gs.length, rest) := by
  induction gs with
  | nil => intro f rest h; exact absurd rfl h
  | cons g gs ih =>
    intro f rest _ h4 hf
    have hg : g.length = 4 := h4 g (by simp)
    obtain ⟨f1, rfl⟩ : ∃ f1, f = f1 + 1 := ⟨f - 1, by simp at hf; omega⟩
    rw [parseLit_succ]
    cases gs with
    | nil =>
      unfold litStep
      simp [encodeGroups, List.take_left' hg, List.drop_left' hg]
    | cons g2 gs2 =>
      have hf2 : (g2 :: gs2).length ≤ f1 := by
        simp only [List.length_cons] at hf ⊢
        omega
      have hrec := ih f1 rest (by simp) (fun x hx => h4 x (List.mem_cons_of_mem g hx)) hf2
      unfold litStep
      have henc : encodeGroups (g :: g2 :: gs2) ++ rest
          = true :: (g ++ (encodeGroups (g2 :: gs2) ++ rest)) := by
        simp [encodeGroups]
      rw [henc]
      simp only [List.take_succ_cons, List.take_zero, List.drop_succ_cons, List.drop_zero]
      rw [List.take_left' hg, List.drop_left' hg, hrec]
      simp only [List.flatten_cons, List.length_cons]
      have : (5 : Nat) + 5 * (g2 :: gs2).length = 5 * ((g2 :: gs2).length + 1) := by ring
      simp only [List.length_cons] at this
      simp [this]

/-- Claim C2: on a bit sequence that encodes a Literal packet (type code
4, binary 100) whose value fits in 64 bits, `parse` returns a literal
packet whose value is the MSB-first reading of the concatenated 4-bit
payload groups, consuming 6 + 5 * groupCount bits, where the encoded
groups carry continuation flag 1 on all but the last group and 0 on the
last. -/
theorem parse_literal_packet (f : Nat) (ver : List Bool) (gs : List (List Bool)) (rest : List Bool)
    (hv : ver.length = 3) (hgs : gs ≠ []) (h4 : ∀ g ∈ gs, g.length = 4)
    (hfit : binToNat gs.flatten < U64) (hf : gs.length ≤ f) :
    parse (f + 1) (ver ++ ([true, false, false] ++ (encodeGroups gs ++ rest))) =
      some (Packet.literal (binToNat ver) (binToNat gs.flatten), 6 + 5 * gs.length, rest) := by
  rw [parse_succ]
  have h3 : ([true, false, false] : List Bool).length = 3 := rfl
  have h4' : binToNat [true, false, false] = 4 := by decide
  simp only [pktStep, List.take_left' hv, List.drop_left' hv, List.take_left' h3,
    List.drop_left' h3, isEmpty_false_of_length hv (by omega : 0 < 3), h4',
    Bool.false_eq_true, if_false, if_true, List.isEmpty_cons, reduceIte]
  rw [parseLit_encode gs f rest hgs h4 hf]
  have hne : gs.flatten.isEmpty = false := by
    obtain ⟨g, gs2, rfl⟩ : ∃ g gs2, gs = g :: gs2 := by
      cases gs with
      | nil => exact absurd rfl hgs
      | cons a b => exact ⟨a, b, rfl⟩
    have hg : g.length = 4 := h4 g (by simp)
    cases g with
    | nil => simp at hg
    | cons x xs => simp
  simp [hne, hfit]

theorem parseSubsLen_none (bits : List Bool) (target parsed : Nat) (acc : List Packet) :
    parseSubsLen 0 bits target parsed acc = none := rfl

theorem parseSubsCnt_none (bits : List Bool) (k : Nat) : parseSubsCnt 0 bits k = none := rfl

theorem parse_none (bits : List Bool) : parse 0 bits = none := rfl

theorem parseSubsLen_ge : ∀ (f : Nat) (bits : List Bool) (target parsed : Nat)
    (acc subs : List Packet) (l : Nat) (rest : List Bool),
    parseSubsLen f bits target parsed acc = some (subs, l, rest) → target ≤ l := by
  intro f
  induction f with
  | zero =>
    intro bits target parsed acc subs l rest h
    rw [parseSubsLen_none] at h
    exact absurd h (by simp)
  | succ f ih =>
    intro bits target parsed acc subs l rest h
    rw [parseSubsLen_succ] at h
    unfold lenLoopStep at h
    by_cases hc : parsed < target
    · rw [if_pos hc] at h
      cases hp : parse f bits with
      | none => rw [hp] at h; exact absurd h (by simp)
      | some r =>
        obtain ⟨p, pl, bits1⟩ := r
        rw [hp] at h
        exact ih bits1 target (parsed + pl) (acc ++ [p]) subs l rest h
    · rw [if_neg hc] at h
      simp only [Option.some.injEq, Prod.mk.injEq] at h
      omega

theorem opOfCode_total (c : Nat) (h8 : c < 8) (h4 : c ≠ 4) :
    ∃ op, opOfCode c = some op := by
  interval_cases c <;> simp [opOfCode] at h4 ⊢

/-- Claim C3: on an Operator packet in length-prefixed mode (mode bit 0),
`parse` reads a 15-bit total, runs the child loop on the remaining bits,
and succeeds precisely when the accumulated child bits equal that total
exactly, consuming 6 + 1 + 15 + totalChildBits bits; any other
accumulated length (the loop always reaches at least the target, so this
is an overshoot) fails via the assertion after the loop. -/
theorem parse_length_framed_operator (f : Nat) (ver t len15 body : List Bool)
    (hv : ver.length = 3) (ht : t.length = 3) (ht4 : binToNat t ≠ 4)
    (hl : len15.length = 15) :
    (∃ op, opOfCode (binToNat t) = some op ∧
      parse (f + 1) (ver ++ (t ++ ([false] ++ (len15 ++ body)))) =
        match parseSubsLen f body (binToNat len15) 0 [] with
        | none => none
        | some (subs, l, rest) =>
          if binToNat len15 = l then
            some (Packet.operation (binToNat ver) op subs, 6 + 1 + 15 + l, rest)
          else none)
    ∧ ∀ subs l rest, parseSubsLen f body (binToNat len15) 0 [] = some (subs, l, rest) →
        binToNat len15 ≤ l := by
  have h8 : binToNat t < 8 := by
    have h := binToNat_lt t
    rw [ht] at h
    norm_num at h
    exact h
  obtain ⟨op, hop⟩ := opOfCode_total (binToNat t) h8 ht4
  constructor
  · refine ⟨op, hop, ?_⟩
    rw [parse_succ]
    have h1 : ([false] : List Bool).length = 1 := rfl
    simp only [pktStep, List.take_left' hv, List.drop_left' hv, List.take_left' ht,
      List.drop_left' ht, List.take_left' h1, List.drop_left' h1,
      List.take_left' hl, List.drop_left' hl,
      isEmpty_false_of_length hv (by omega : 0 < 3),
      isEmpty_false_of_length ht (by omega : 0 < 3),
      isEmpty_false_of_length hl (by omega : 0 < 15),
      if_neg ht4, Bool.false_eq_true, if_false, reduceIte, hop]
  · intro subs l rest h
    exact parseSubsLen_ge f body (binToNat len15) 0 [] subs l rest h

theorem parseSubsCnt_seq : ∀ (f : Nat) (bits : List Bool) (k : Nat) (subs : List Packet)
    (s : Nat) (rest : List Bool), parseSubsCnt f bits k = some (subs, s, rest) →
    ∃ pairs : List (Packet × Nat), ParseSeq bits pairs rest ∧
      pairs.map Prod.fst = subs ∧ (pairs.map Prod.snd).sum = s ∧ pairs.length = k := by
  intro f
  induction f with
  | zero =>
    intro bits k subs s rest h
    rw [parseSubsCnt_none] at h
    exact absurd h (by simp)
  | succ f ih =>
    intro bits k subs s rest h
    rw [parseSubsCnt_succ] at h
    unfold cntLoopStep at h
    cases k with
    | zero =>
      simp only [Option.some.injEq, Prod.mk.injEq] at h
      obtain ⟨h1, h2, h3⟩ := h
      subst h1; subst h2; subst h3
      exact ⟨[], ParseSeq.nil bits, rfl, rfl, rfl⟩
    | succ k1 =>
      cases hp : parse f bits with
      | none => simp only [hp] at h; exact absurd h (by simp)
      | some r =>
        obtain ⟨p, pl, bits1⟩ := r
        simp only [hp] at h
        cases hq : parseSubsCnt f bits1 k1 with
        | none => simp only [hq] at h; exact absurd h (by simp)
        | some r2 =>
          obtain ⟨subs1, s1, rest1⟩ := r2
          simp only [hq, Option.some.injEq, Prod.mk.injEq] at h
          obtain ⟨h1, h2, h3⟩ := h
          obtain ⟨pairs1, hseq, hfst, hsnd, hlen⟩ := ih bits1 k1 subs1 s1 rest1 hq
          subst h1; subst h2; subst h3
          refine ⟨(p, pl) :: pairs1, ParseSeq.cons hp hseq, ?_, ?_, ?_⟩
          · simp [hfst]
          · simp [hsnd]
          · simp [hlen]

/-- Claim C4: on an Operator packet in count-prefixed mode (mode bit 1),
`parse` reads an 11-bit child count, performs exactly that many recursive
parses in sequence collecting the children in order, and consumes
6 + 1 + 11 + (sum of the children's consumed bits) bits. -/
theorem parse_count_framed_operator (f : Nat) (ver t cnt11 body : List Bool)
    (hv : ver.length = 3) (ht : t.length = 3) (ht4 : binToNat t ≠ 4)
    (hc : cnt11.length = 11) (p : Packet) (n : Nat) (rest : List Bool)
    (hparse : parse (f + 1) (ver ++ (t ++ ([true] ++ (cnt11 ++ body)))) = some (p, n, rest)) :
    ∃ op pairs, opOfCode (binToNat t) = some op ∧ ParseSeq body pairs rest ∧
      pairs.length = binToNat cnt11 ∧
      p = Packet.operation (binToNat ver) op (pairs.map Prod.fst) ∧
      n = 6 + 1 + 11 + (pairs.map Prod.snd).sum := by
  have h8 : binToNat t < 8 := by
    have h := binToNat_lt t
    rw [ht] at h
    norm_num at h
    exact h
  obtain ⟨op, hop⟩ := opOfCode_total (binToNat t) h8 ht4
  rw [parse_succ] at hparse
  have h1 : ([true] : List Bool).length = 1 := rfl
  simp only [pktStep, List.take_left' hv, List.drop_left' hv, List.take_left' ht,
    List.drop_left' ht, List.take_left' h1, List.drop_left' h1,
    List.take_left' hc, List.drop_left' hc,
    isEmpty_false_of_length hv (by omega : 0 < 3),
    isEmpty_false_of_length ht (by omega : 0 < 3),
    isEmpty_false_of_length hc (by omega : 0 < 11),
    if_neg ht4, Bool.false_eq_true, if_false, reduceIte, hop,
    List.cons.injEq, Bool.true_eq_false, false_and] at hparse
  cases hq : parseSubsCnt f body (binToNat cnt11) with
  | none => simp only [hq] at hparse; exact absurd hparse (by simp)
  | some r =>
    obtain ⟨subs, s, rest1⟩ := r
    simp only [hq, Option.some.injEq, Prod.mk.injEq] at hparse
    obtain ⟨hp1, hn1, hr1⟩ := hparse
    obtain ⟨pairs, hseq, hfst, hsnd, hlen⟩ := parseSubsCnt_seq f body (binToNat cnt11) subs s rest1 hq
    subst hr1
    refine ⟨op, pairs, hop, hseq, hlen, ?_, ?_⟩
    · rw [← hp1, hfst]
    · omega

/-- Claim C5: the 3-bit type code maps to the operator kind by the fixed
table 0 Sum, 1 Product, 2 Minimum, 3 Maximum, 5 GreaterThan, 6 LessThan,
7 EqualTo; every other code (4 included) yields no operator kind; and a
parse whose type-code field reads 4 can only produce a Literal packet,
never an operator. -/
theorem operator_code_table :
    (opOfCode 0 = some OperationType.Sum ∧ opOfCode 1 = some OperationType.Product ∧
     opOfCode 2 = some OperationType.Min ∧ opOfCode 3 = some OperationType.Max ∧
     opOfCode 5 = some OperationType.Greater ∧ opOfCode 6 = some OperationType.Less ∧
     opOfCode 7 = some OperationType.Equal)
    ∧ (∀ c : Nat, c ≠ 0 → c ≠ 1 → c ≠ 2 → c ≠ 3 → c ≠ 5 → c ≠ 6 → c ≠ 7 → opOfCode c = none)
    ∧ (∀ (f : Nat) (bits : List Bool) (p : Packet) (n : Nat) (rest : List Bool),
        parse f bits = some (p, n, rest) → binToNat ((bits.drop 3).take 3) = 4 →
        ∃ w v, p = Packet.literal w v) := by
  refine ⟨⟨rfl, rfl, rfl, rfl, rfl, rfl, rfl⟩, ?_, ?_⟩
  · intro c h0 h1 h2 h3 h5 h6 h7
    simp [opOfCode, h0, h1, h2, h3, h5, h6, h7]
  · intro f bits p n rest hp h4
    cases f with
    | zero => rw [parse_none] at hp; exact absurd hp (by simp)
    | succ f =>
      rw [parse_succ] at hp
      simp only [pktStep] at hp
      rw [h4] at hp
      by_cases hb1 : (List.take 3 bits).isEmpty = true
      · rw [if_pos hb1] at hp; exact absurd hp (by simp)
      · rw [if_neg hb1] at hp
        by_cases hb2 : (List.take 3 (List.drop 3 bits)).isEmpty = true
        · rw [if_pos hb2] at hp; exact absurd hp (by simp)
        · rw [if_neg hb2, if_pos rfl] at hp
          cases hl : parseLit f (List.drop 3 (List.drop 3 bits)) with
          | none => simp only [hl] at hp; exact absurd hp (by simp)
          | some r =>
            obtain ⟨litBuf, litLen, bits3⟩ := r
            simp only [hl] at hp
            by_cases hb3 : litBuf.isEmpty = true
            · rw [if_pos hb3] at hp; exact absurd hp (by simp)
            · rw [if_neg hb3] at hp
              by_cases hb4 : binToNat litBuf < U64
              · rw [if_pos hb4] at hp
                simp only [Option.some.injEq, Prod.mk.injEq] at hp
                exact ⟨binToNat (List.take 3 bits), binToNat litBuf, hp.1.symm⟩
              · rw [if_neg hb4] at hp; exact absurd hp (by simp)

theorem evaluate_literal (w v : Nat) : evaluate (Packet.literal w v) = some v := by
  simp [evaluate]

theorem evaluate_sum (w : Nat) (subs : List Packet) :
    evaluate (Packet.operation w OperationType.Sum subs) =
      (evalList subs).map (fun vs => vs.foldl (fun a v => (a + v) % U64) 0) := by
  simp [evaluate]

theorem evaluate_product (w : Nat) (subs : List Packet) :
    evaluate (Packet.operation w OperationType.Product subs) =
      (evalList subs).map (fun vs => vs.foldl (fun a v => (a * v) % U64) 1) := by
  simp [evaluate]

theorem evaluate_min (w : Nat) (subs : List Packet) :
    evaluate (Packet.operation w OperationType.Min subs) =
      (evalList subs).bind (fun vs => vs.min?) := by
  simp [evaluate]

theorem evaluate_max (w : Nat) (subs : List Packet) :
    evaluate (Packet.operation w OperationType.Max subs) =
      (evalList subs).bind (fun vs => vs.max?) := by
  simp [evaluate]

theorem evaluate_greater (w : Nat) (p1 p2 : Packet) (t : List Packet) :
    evaluate (Packet.operation w OperationType.Greater (p1 :: p2 :: t)) =
      match evaluate p1, evaluate p2 with
      | some v1, some v2 => some (if v1 > v2 then 1 else 0)
      | _, _ => none := by
  simp [evaluate]

theorem evaluate_less (w : Nat) (p1 p2 : Packet) (t : List Packet) :
    evaluate (Packet.operation w OperationType.Less (p1 :: p2 :: t)) =
      match evaluate p1, evaluate p2 with
      | some v1, some v2 => some (if v1 < v2 then 1 else 0)
      | _, _ => none := by
  simp [evaluate]

theorem evaluate_equal (w : Nat) (p1 p2 : Packet) (t : List Packet) :
    evaluate (Packet.operation w OperationType.Equal (p1 :: p2 :: t)) =
      match evaluate p1, evaluate p2 with
      | some v1, some v2 => some (if v1 = v2 then 1 else 0)
      | _, _ => none := by
  simp [evaluate]

theorem evalList_nil : evalList [] = some [] := by simp [evalList]

theorem evalList_cons (p : Packet) (ps : List Packet) :
    evalList (p :: ps) =
      match evaluate p with
      | none => none
      | some v =>
        match evalList ps with
        | none => none
        | some vs => some (v :: vs) := by
  simp [evalList]

theorem specEvalList_cons (p : Packet) (ps : List Packet) :
    specEvalList (p :: ps) = specEval p :: specEvalList ps := by
  simp [specEvalList]

theorem InvListB_mem : ∀ (subs : List Packet), InvListB subs = true →
    ∀ s ∈ subs, InvB s = true := by
  intro subs h s hm
  induction subs with
  | nil => simp at hm
  | cons a l ih =>
    rw [show InvListB (a :: l) = (InvB a && InvListB l) from by simp [InvListB]] at h
    simp only [Bool.and_eq_true] at h
    rcases List.mem_cons.mp hm with h1 | h1
    · rw [h1]; exact h.1
    · exact ih h.2 h1

theorem evalList_spec (subs : List Packet)
    (h : ∀ s ∈ subs, evaluate s = some (specEval s)) :
    evalList subs = some (specEvalList subs) := by
  induction subs with
  | nil => simp [evalList, specEvalList]
  | cons p ps ih =>
    rw [evalList_cons, h p (by simp), ih (fun s hs => h s (by simp [hs])), specEvalList_cons]

theorem length_eq_two (subs : List Packet) (h : subs.length = 2) :
    ∃ a b, subs = [a, b] := by
  cases subs with
  | nil => simp at h
  | cons a t =>
    cases t with
    | nil => simp at h
    | cons b t2 =>
      cases t2 with
      | nil => exact ⟨a, b, rfl⟩
      | cons c t3 => simp at h

theorem evaluate_spec_aux : ∀ (n : Nat) (p : Packet), sizeOf p ≤ n → InvB p = true →
    evaluate p = some (specEval p) := by
  intro n
  induction n with
  | zero =>
    intro p h
    exfalso
    cases p <;> simp at h
  | succ n ih =>
    intro p hs hinv
    cases p with
    | literal w v => simp [evaluate, specEval]
    | operation w op subs =>
      have hsz : ∀ s ∈ subs, sizeOf s ≤ n := by
        intro s hm
        have h1 := List.sizeOf_lt_of_mem hm
        simp only [Packet.operation.sizeOf_spec] at hs
        omega
      rw [show InvB (Packet.operation w op subs) =
        ((if isCompOp op then subs.length == 2 else !subs.isEmpty) && InvListB subs)
        from by simp [InvB]] at hinv
      simp only [Bool.and_eq_true] at hinv
      obtain ⟨hshape, hlist⟩ := hinv
      have hch : ∀ s ∈ subs, evaluate s = some (specEval s) :=
        fun s hm => ih s (hsz s hm) (InvListB_mem subs hlist s hm)
      have hev := evalList_spec subs hch
      cases op with
      | Sum =>
        rw [evaluate_sum, hev]
        simp [specEval]
      | Product =>
        rw [evaluate_product, hev]
        simp [specEval]
      | Min =>
        simp only [isCompOp, if_false, Bool.not_eq_true'] at hshape
        cases subs with
        | nil => simp at hshape
        | cons a l =>
          rw [evaluate_min, hev, specEvalList_cons]
          simp [specEval, List.min?, listMin, specEvalList_cons]
      | Max =>
        simp only [isCompOp, if_false, Bool.not_eq_true'] at hshape
        cases subs with
        | nil => simp at hshape
        | cons a l =>
          rw [evaluate_max, hev, specEvalList_cons]
          simp [specEval, List.max?, listMax, specEvalList_cons]
      | Greater =>
        simp only [isCompOp, if_true, beq_iff_eq] at hshape
        obtain ⟨a, b, rfl⟩ := length_eq_two subs hshape
        rw [evaluate_greater, hch a (by simp), hch b (by simp)]
        simp [specEval, specEvalList_cons]
      | Less =>
        simp only [isCompOp, if_true, beq_iff_eq] at hshape
        obtain ⟨a, b, rfl⟩ := length_eq_two subs hshape
        rw [evaluate_less, hch a (by simp), hch b (by simp)]
        simp [specEval, specEvalList_cons]
      | Equal =>
        simp only [isCompOp, if_true, beq_iff_eq] at hshape
        obtain ⟨a, b, rfl⟩ := length_eq_two subs hshape
        rw [evaluate_equal, hch a (by simp), hch b (by simp)]
        simp [specEval, specEvalList_cons]

/-- Claim C1: for every tree satisfying the section-3 invariants (literal
values are u64; comparison operators have exactly 2 children; the other
operators have at least 1), `evaluate` succeeds and returns the stored
value for a literal, the left-to-right fold of wrapping 64-bit addition
with seed 0 for Sum, the fold of wrapping multiplication with seed 1 for
Product, the minimum resp. maximum of the children's evaluated values for
Minimum resp. Maximum, and 1 or 0 for GreaterThan/LessThan/EqualTo
according to the comparison of the first child's value with the second
child's value -- the behaviour captured verbatim by `specEval`. -/
theorem evaluate_meets_invariant_spec (p : Packet) (h : InvB p = true) : evaluate p = some (specEval p) :=
  evaluate_spec_aux (sizeOf p) p (Nat.le_refl _) h

/-- Witness for claim C1 at a concrete LessThan tree. -/
theorem evaluate_meets_invariant_spec_witness :
    evaluate (Packet.operation 0 OperationType.Less [Packet.literal 6 10, Packet.literal 2 20]) =
      some (specEval (Packet.operation 0 OperationType.Less
        [Packet.literal 6 10, Packet.literal 2 20])) :=
  evaluate_meets_invariant_spec _ (by simp [InvB, InvListB, isCompOp, U64])

theorem evalList_isSome : ∀ (subs : List Packet),
    (∀ s ∈ subs, ∃ v, evaluate s = some v) →
    ∃ vs, evalList subs = some vs ∧ vs.length = subs.length := by
  intro subs h
  induction subs with
  | nil => exact ⟨[], by simp [evalList], rfl⟩
  | cons p ps ih =>
    obtain ⟨v, hv⟩ := h p (by simp)
    obtain ⟨vs, hvs, hlen⟩ := ih (fun s hs => h s (by simp [hs]))
    refine ⟨v :: vs, ?_, by simp [hlen]⟩
    rw [evalList_cons, hv, hvs]

theorem WeakInvListB_mem : ∀ (subs : List Packet), WeakInvListB subs = true →
    ∀ s ∈ subs, WeakInvB s = true := by
  intro subs h s hm
  induction subs with
  | nil => simp at hm
  | cons a l ih =>
    rw [show WeakInvListB (a :: l) = (WeakInvB a && WeakInvListB l) from by
      simp [WeakInvListB]] at h
    simp only [Bool.and_eq_true] at h
    rcases List.mem_cons.mp hm with h1 | h1
    · rw [h1]; exact h.1
    · exact ih h.2 h1

theorem WeakInvB_children (w : Nat) (op : OperationType) (subs : List Packet)
    (h : WeakInvB (Packet.operation w op subs) = true) : WeakInvListB subs = true := by
  cases op <;>
    simp only [WeakInvB, Bool.true_and, Bool.and_eq_true] at h <;>
    first
    | exact h
    | exact h.2

theorem evaluate_weak_aux : ∀ (n : Nat) (p : Packet), sizeOf p ≤ n → WeakInvB p = true →
    ∃ v, evaluate p = some v := by
  intro n
  induction n with
  | zero =>
    intro p h
    exfalso
    cases p <;> simp at h
  | succ n ih =>
    intro p hs hw
    cases p with
    | literal w v => exact ⟨v, by simp [evaluate]⟩
    | operation w op subs =>
      have hsz : ∀ s ∈ subs, sizeOf s ≤ n := by
        intro s hm
        have h1 := List.sizeOf_lt_of_mem hm
        simp only [Packet.operation.sizeOf_spec] at hs
        omega
      have hlist := WeakInvB_children w op subs hw
      have hch : ∀ s ∈ subs, ∃ v, evaluate s = some v :=
        fun s hm => ih s (hsz s hm) (WeakInvListB_mem subs hlist s hm)
      obtain ⟨vs, hvs, hlen⟩ := evalList_isSome subs hch
      cases op with
      | Sum => exact ⟨_, by rw [evaluate_sum, hvs]; rfl⟩
      | Product => exact ⟨_, by rw [evaluate_product, hvs]; rfl⟩
      | Min =>
        simp only [WeakInvB, Bool.and_eq_true, Bool.not_eq_true'] at hw
        cases subs with
        | nil => simp at hw
        | cons a l =>
          cases vs with
          | nil => simp at hlen
          | cons v vs2 =>
            refine ⟨vs2.foldl Nat.min v, ?_⟩
            rw [evaluate_min, hvs]
            simp [List.min?]
      | Max =>
        simp only [WeakInvB, Bool.and_eq_true, Bool.not_eq_true'] at hw
        cases subs with
        | nil => simp at hw
        | cons a l =>
          cases vs with
          | nil => simp at hlen
          | cons v vs2 =>
            refine ⟨vs2.foldl Nat.max v, ?_⟩
            rw [evaluate_max, hvs]
            simp [List.max?]
      | Greater =>
        simp only [WeakInvB, Bool.and_eq_true, decide_eq_true_eq] at hw
        obtain ⟨hshape, h2⟩ := hw
        obtain ⟨p1, t1, rfl⟩ : ∃ p1 t1, subs = p1 :: t1 := by
          cases subs with
          | nil => simp at hshape
          | cons a t => exact ⟨a, t, rfl⟩
        obtain ⟨p2, t2, rfl⟩ : ∃ p2 t2, t1 = p2 :: t2 := by
          cases t1 with
          | nil => simp at hshape
          | cons a t => exact ⟨a, t, rfl⟩
        obtain ⟨v1, hv1⟩ := hch p1 (by simp)
        obtain ⟨v2, hv2⟩ := hch p2 (by simp)
        exact ⟨_, by rw [evaluate_greater, hv1, hv2]⟩
      | Less =>
        simp only [WeakInvB, Bool.and_eq_true, decide_eq_true_eq] at hw
        obtain ⟨hshape, h2⟩ := hw
        obtain ⟨p1, t1, rfl⟩ : ∃ p1 t1, subs = p1 :: t1 := by
          cases subs with
          | nil => simp at hshape
          | cons a t => exact ⟨a, t, rfl⟩
        obtain ⟨p2, t2, rfl⟩ : ∃ p2 t2, t1 = p2 :: t2 := by
          cases t1 with
          | nil => simp at hshape
          | cons a t => exact ⟨a, t, rfl⟩
        obtain ⟨v1, hv1⟩ := hch p1 (by simp)
        obtain ⟨v2, hv2⟩ := hch p2 (by simp)
        exact ⟨_, by rw [evaluate_less, hv1, hv2]⟩
      | Equal =>
        simp only [WeakInvB, Bool.and_eq_true, decide_eq_true_eq] at hw
        obtain ⟨hshape, h2⟩ := hw
        obtain ⟨p1, t1, rfl⟩ : ∃ p1 t1, subs = p1 :: t1 := by
          cases subs with
          | nil => simp at hshape
          | cons a t => exact ⟨a, t, rfl⟩
        obtain ⟨p2, t2, rfl⟩ : ∃ p2 t2, t1 = p2 :: t2 := by
          cases t1 with
          | nil => simp at hshape
          | cons a t => exact ⟨a, t, rfl⟩
        obtain ⟨v1, hv1⟩ := hch p1 (by simp)
        obtain ⟨v2, hv2⟩ := hch p2 (by simp)
        exact ⟨_, by rw [evaluate_equal, hv1, hv2]⟩

/-- Claim C10: `evaluate` never fails on a tree in which every comparison
node has at least two children and every Minimum/Maximum node has at
least one child; moreover a Sum with zero children evaluates to 0, a
Product with zero children evaluates to 1, and children of a comparison
node beyond the first two do not affect the result. -/
theorem evaluate_total_under_weak_shape :
    (∀ p : Packet, WeakInvB p = true → (evaluate p).isSome = true)
    ∧ (∀ w : Nat, evaluate (Packet.operation w OperationType.Sum []) = some 0)
    ∧ (∀ w : Nat, evaluate (Packet.operation w OperationType.Product []) = some 1)
    ∧ (∀ (w : Nat) (op : OperationType) (p1 p2 : Packet) (t1 t2 : List Packet),
        isCompOp op = true →
        evaluate (Packet.operation w op (p1 :: p2 :: t1)) =
          evaluate (Packet.operation w op (p1 :: p2 :: t2))) := by
  refine ⟨?_, ?_, ?_, ?_⟩
  · intro p h
    obtain ⟨v, hv⟩ := evaluate_weak_aux (sizeOf p) p (Nat.le_refl _) h
    simp [hv]
  · intro w; rw [evaluate_sum, evalList_nil]; rfl
  · intro w; rw [evaluate_product, evalList_nil]; rfl
  · intro w op p1 p2 t1 t2 hcomp
    cases op with
    | Greater => rw [evaluate_greater, evaluate_greater]
    | Less => rw [evaluate_less, evaluate_less]
    | Equal => rw [evaluate_equal, evaluate_equal]
    | Sum => simp [isCompOp] at hcomp
    | Product => simp [isCompOp] at hcomp
    | Min => simp [isCompOp] at hcomp
    | Max => simp [isCompOp] at hcomp

/-- Witness for claim C10 at a concrete literal and a three-child
comparison pair differing only beyond the second child. -/
theorem evaluate_total_under_weak_shape_witness :
    (evaluate (Packet.literal 0 7)).isSome = true ∧
    evaluate (Packet.operation 3 OperationType.Greater
        [Packet.literal 0 1, Packet.literal 0 2, Packet.literal 0 5]) =
      evaluate (Packet.operation 3 OperationType.Greater
        [Packet.literal 0 1, Packet.literal 0 2, Packet.literal 0 9]) :=
  ⟨evaluate_total_under_weak_shape.1 (Packet.literal 0 7) (by simp [WeakInvB, U64]),
   evaluate_total_under_weak_shape.2.2.2 3 OperationType.Greater (Packet.literal 0 1) (Packet.literal 0 2)
     [Packet.literal 0 5] [Packet.literal 0 9] rfl⟩

/-- Counterexample to claim C7: `evaluate` does not fail on a Sum with 0
children (it returns the fold seed 0), nor on a comparison with 3
children (it compares the first two and ignores the rest). -/
theorem evaluate_accepts_malformed_trees :
    evaluate (Packet.operation 0 OperationType.Sum []) = some 0 ∧
    evaluate (Packet.operation 0 OperationType.Greater
      [Packet.literal 0 5, Packet.literal 0 3, Packet.literal 0 99]) = some 1 := by
  constructor
  · rw [evaluate_sum, evalList_nil]; rfl
  · rw [evaluate_greater, evaluate_literal, evaluate_literal]; rfl

/-- Claim C7 as amended: `evaluate` fails (by panic, modelled as `none`,
not by a MalformedTree error kind, which the code does not have) exactly
on a comparison operator with fewer than 2 children or a Minimum/Maximum
with 0 children; a Sum or Product with 0 children instead succeeds with
its fold seed. -/
theorem evaluate_failure_conditions :
    (∀ (w : Nat) (op : OperationType) (subs : List Packet), isCompOp op = true →
        subs.length < 2 → evaluate (Packet.operation w op subs) = none)
    ∧ (∀ (w : Nat) (op : OperationType), (op = OperationType.Min ∨ op = OperationType.Max) →
        evaluate (Packet.operation w op []) = none)
    ∧ (∀ w : Nat, evaluate (Packet.operation w OperationType.Sum []) = some 0)
    ∧ (∀ w : Nat, evaluate (Packet.operation w OperationType.Product []) = some 1) := by
  refine ⟨?_, ?_, ?_, ?_⟩
  · intro w op subs hcomp hlen
    obtain hsubs : subs = [] ∨ ∃ a, subs = [a] := by
      cases subs with
      | nil => exact Or.inl rfl
      | cons a t =>
        cases t with
        | nil => exact Or.inr ⟨a, rfl⟩
        | cons b t2 => simp at hlen; omega
    cases op <;> simp [isCompOp] at hcomp <;>
      rcases hsubs with h | ⟨a, h⟩ <;> subst h <;> simp [evaluate]
  · intro w op hop
    rcases hop with h | h <;> subst h
    · rw [evaluate_min, evalList_nil]; rfl
    · rw [evaluate_max, evalList_nil]; rfl
  · intro w; rw [evaluate_sum, evalList_nil]; rfl
  · intro w; rw [evaluate_product, evalList_nil]; rfl

/-- Witness for the amended claim C7 at a one-child GreaterThan and an
empty Minimum. -/
theorem evaluate_failure_conditions_witness :
    evaluate (Packet.operation 0 OperationType.Greater [Packet.literal 0 1]) = none ∧
    evaluate (Packet.operation 0 OperationType.Min []) = none :=
  ⟨evaluate_failure_conditions.1 0 OperationType.Greater [Packet.literal 0 1] rfl (by simp),
   evaluate_failure_conditions.2.1 0 OperationType.Min (Or.inl rfl)⟩

/-- Counterexample to claim C6: a bit region too short for a fixed-width
read does not make decoding fail.  Here the final 4-bit literal payload
group is truncated to 2 bits, yet `parse` succeeds and returns value 2
(read from the 2 remaining bits) while reporting 11 consumed bits. -/
theorem truncated_literal_accepted :
    parse 2 [true, true, false, true, false, false, false, true, false] =
      some (Packet.literal 6 2, 11, []) := rfl

theorem parseLit_nil : ∀ f : Nat, parseLit f [] = none := by
  intro f
  induction f with
  | zero => rfl
  | succ f ih =>
    rw [parseLit_succ]
    unfold litStep
    simp [ih]

theorem parse_nil : ∀ f : Nat, parse f [] = none := by
  intro f
  cases f with
  | zero => rfl
  | succ f =>
    rw [parse_succ]
    unfold pktStep
    simp

theorem hex_to_bin_none : ∀ (cs : List Char) (c : Char), c ∈ cs → toDigitHex c = none →
    hex_to_bin cs = none := by
  intro cs
  induction cs with
  | nil => intro c h; simp at h
  | cons a l ih =>
    intro c hm hc
    rcases List.mem_cons.mp hm with h1 | h1
    · subst h1
      simp [hex_to_bin, hc]
    · unfold hex_to_bin
      cases ha : toDigitHex a with
      | none => rfl
      | some d => rw [ih c h1 hc]

/-- Claim C6 as amended: a non-hexadecimal character makes the hex
conversion fail (`none`, the model of the `unwrap` panic -- no error kind
exists in the code); a fixed-width read that obtains no bits at all makes
`parse` fail; a literal whose bits run out between groups never
terminates (no fuel suffices); and a partially-filled fixed-width read is
accepted, producing a value decoded from fewer bits than specified. -/
theorem malformed_input_outcomes :
    (∀ (cs : List Char) (c : Char), c ∈ cs → toDigitHex c = none → hex_to_bin cs = none)
    ∧ (∀ f : Nat, parse f [] = none)
    ∧ (∀ f : Nat, parseLit f [] = none)
    ∧ parse 2 [true, true, false, true, false, false, false, true, false] =
        some (Packet.literal 6 2, 11, []) :=
  ⟨hex_to_bin_none, parse_nil, parseLit_nil, rfl⟩

/-- Witness for the amended claim C6 at a concrete non-hex character and
the empty bit stream. -/
theorem malformed_input_outcomes_witness :
    hex_to_bin ['G'] = none ∧ parse 3 [] = none :=
  ⟨malformed_input_outcomes.1 ['G'] 'G' (by simp) (by decide), malformed_input_outcomes.2.1 3⟩

theorem toDigitHex_lt (c : Char) (d : Nat) (h : toDigitHex c = some d) : d < 16 := by
  simp only [toDigitHex] at h
  split_ifs at h with h1 h2 h3 <;>
    simp only [Option.some.injEq] at h <;> omega

theorem binToNat_natToBits4 : ∀ d : Nat, d < 16 → binToNat (natToBits4 d) = d := by decide

theorem chunks4_group (a b c d : Bool) (rest : List Bool) :
    chunks4 (a :: b :: c :: d :: rest) = [a, b, c, d] :: chunks4 rest := by
  rw [chunks4]
  simp

/-- Claim C8: on a string of valid hexadecimal digits of either case,
`hex_to_bin` succeeds with a bit sequence of length exactly 4 times the
number of digits, MSB-first within each digit, digits left to right; and
regrouping that output into consecutive 4-bit groups and reading each
group as a value recovers the original digit-value sequence. -/
theorem hex_to_bin_grouping : ∀ (cs : List Char), (∀ c ∈ cs, (toDigitHex c).isSome = true) →
    ∃ bs, hex_to_bin cs = some bs ∧ bs.length = 4 * cs.length ∧
      (chunks4 bs).map binToNat = cs.map (fun c => (toDigitHex c).getD 0) := by
  intro cs h
  induction cs with
  | nil => exact ⟨[], rfl, rfl, by simp [chunks4]⟩
  | cons c cs ih =>
    obtain ⟨d, hd⟩ : ∃ d, toDigitHex c = some d := by
      have h1 := h c (by simp)
      cases hx : toDigitHex c with
      | none => rw [hx] at h1; simp at h1
      | some d => exact ⟨d, rfl⟩
    obtain ⟨bs, hbs, hlen, hmap⟩ := ih (fun x hx => h x (by simp [hx]))
    refine ⟨natToBits4 d ++ bs, ?_, ?_, ?_⟩
    · simp [hex_to_bin, hd, hbs]
    · simp only [List.length_append, List.length_cons, hlen, natToBits4,
        List.length_nil]
      omega
    · have h16 := toDigitHex_lt c d hd
      have hc4 : ∃ x y z u, natToBits4 d = [x, y, z, u] := ⟨_, _, _, _, rfl⟩
      obtain ⟨x, y, z, u, hxyzu⟩ := hc4
      rw [hxyzu]
      simp only [List.cons_append, List.nil_append, chunks4_group, List.map_cons, hmap,
        hd, Option.getD_some]
      rw [← hxyzu, binToNat_natToBits4 d h16]

/-- Claim C9: the hex string D2FE28 decodes to a single Literal packet
with value 2021; 38006F45291200 decodes to a LessThan operator with two
literal children 10 and 20, which evaluates to 1; EE00D40C823060 decodes
to a Maximum operator with three literal children 1, 2, 3, which
evaluates to 3. -/
theorem example_transmissions :
    decode 50 ("D2FE28".toList) = some (Packet.literal 6 2021)
    ∧ decode 50 ("38006F45291200".toList) =
        some (Packet.operation 1 OperationType.Less [Packet.literal 6 10, Packet.literal 2 20])
    ∧ evaluate (Packet.operation 1 OperationType.Less
        [Packet.literal 6 10, Packet.literal 2 20]) = some 1
    ∧ decode 50 ("EE00D40C823060".toList) =
        some (Packet.operation 7 OperationType.Max
          [Packet.literal 2 1, Packet.literal 4 2, Packet.literal 1 3])
    ∧ evaluate (Packet.operation 7 OperationType.Max
        [Packet.literal 2 1, Packet.literal 4 2, Packet.literal 1 3]) = some 3 := by
  refine ⟨rfl, rfl, ?_, rfl, ?_⟩
  · rw [evaluate_less, evaluate_literal, evaluate_literal]
    rfl
  · rw [evaluate_max]
    simp [evalList_cons, evalList_nil, evaluate_literal, List.max?]

/-- Witness for claim C2: the three payload groups of the worked literal
example, value 2021, 21 bits consumed. -/
theorem parse_literal_packet_witness :
    parse 4 ([true, true, false] ++ ([true, false, false] ++
      (encodeGroups [[false, true, true, true], [true, true, true, false],
        [false, true, false, true]] ++ []))) =
      some (Packet.literal 6 2021, 21, []) := by
  have h := parse_literal_packet 3 [true, true, false]
    [[false, true, true, true], [true, true, true, false], [false, true, false, true]] []
    rfl (by decide) (by decide) (by decide) (by decide)
  exact h

/-- Witness for claim C3 at a concrete LessThan operator with one 11-bit
literal child framed by totalChildBits = 11. -/
theorem parse_length_framed_operator_witness :
    parse 11 ([false, false, true] ++ ([true, true, false] ++ ([false] ++
      ([false, false, false, false, false, false, false, false, false, false, false,
        true, false, true, true] ++
       [false, true, false, true, false, false, false, true, false, true, false])))) =
      some (Packet.operation 1 OperationType.Less [Packet.literal 2 10], 33, []) := by
  obtain ⟨⟨op, hop, heq⟩, hge⟩ := parse_length_framed_operator 10 [false, false, true] [true, true, false]
    [false, false, false, false, false, false, false, false, false, false, false,
      true, false, true, true]
    [false, true, false, true, false, false, false, true, false, true, false]
    rfl rfl (by decide) rfl
  have hLess : op = OperationType.Less := by
    have h2 : some OperationType.Less = some op := hop
    injection h2 with h3
    exact h3.symm
  subst hLess
  rw [heq]
  rfl

/-- Witness for claim C4 at a concrete Maximum operator with one literal
child. -/
theorem parse_count_framed_operator_witness :
    ∃ op pairs, opOfCode (binToNat [false, true, true]) = some op ∧
      ParseSeq [true, true, false, true, false, false, false, false, false, false, true]
        pairs [] ∧
      pairs.length =
        binToNat [false, false, false, false, false, false, false, false, false, false, true] ∧
      Packet.operation 0 OperationType.Max [Packet.literal 6 1] =
        Packet.operation (binToNat [false, false, false]) op (pairs.map Prod.fst) ∧
      29 = 6 + 1 + 11 + (pairs.map Prod.snd).sum :=
  parse_count_framed_operator 4 [false, false, false] [false, true, true]
    [false, false, false, false, false, false, false, false, false, false, true]
    [true, true, false, true, false, false, false, false, false, false, true]
    rfl rfl (by decide) rfl
    (Packet.operation 0 OperationType.Max [Packet.literal 6 1]) 29 [] rfl

/-- Witness for claim C5: code 9 is rejected, and a concrete type-code-4
parse yields a literal. -/
theorem operator_code_table_witness :
    opOfCode 9 = none ∧ ∃ w v, Packet.literal 6 1 = Packet.literal w v :=
  ⟨operator_code_table.2.1 9 (by decide) (by decide) (by decide) (by decide) (by decide)
      (by decide) (by decide),
   operator_code_table.2.2 2 [true, true, false, true, false, false, false, false, false, false, true]
     (Packet.literal 6 1) 11 [] rfl (by decide)⟩

theorem hex_to_bin_grouping_witness :
    ∃ bs, hex_to_bin ['a', 'B', '3'] = some bs ∧
      bs.length = 4 * (['a', 'B', '3'] : List Char).length ∧
      (chunks4 bs).map binToNat =
        (['a', 'B', '3'] : List Char).map (fun c => (toDigitHex c).getD 0) :=
  hex_to_bin_grouping ['a', 'B', '3'] (by decide)
